import Mathlib

/-!
Verification development for the knowbase indexing and retrieval pipeline.
Each Python service is shallowly embedded as executable Lean definitions:
machine integers become `Nat`/`Int`, Python floats become `ℚ` (all score
arithmetic here is far from the rounding regime of IEEE doubles), fallible
code returns `Option`/`Except`, and `while` loops become fuel-indexed
recursion (`none` = the fuel ran out, which for loops whose state strictly
progresses is proved impossible).
-/

set_option maxHeartbeats 1000000

/-! ## Chunker (backend/app/services/chunker.py) -/

/-- Configuration of the chunker, from `ChunkConfig`.  Only the fields the
fixed-size strategy reads are kept; both are non-negative integers. -/
structure ChunkConfig where
  chunk_size : Nat := 1000
  chunk_overlap : Nat := 200
deriving DecidableEq

/-- One emitted chunk, from the `Chunk` dataclass: content, running index and
the `[start_char, end_char)` range in the source.  The positions are `Int`
because the Python loop variable `start` can go negative when
`chunk_overlap > chunk_size`. -/
structure Chunk where
  content : String
  index : Nat
  start_char : Int
  end_char : Int
deriving DecidableEq

/-- Character class of the regex `[一-鿿]` used by `token_count`. -/
def isCJK (c : Char) : Bool := 0x4e00 ≤ c.toNat && c.toNat ≤ 0x9fff

/-- Number of regex matches of `[一-鿿]` in a string
(`len(re.findall(...))` in the source). -/
def cjkCount (s : String) : Nat := (s.data.filter isCJK).length

/-- Number of characters outside the CJK range, counted directly. -/
def nonCjkCount (s : String) : Nat := (s.data.filter (fun c => !(isCJK c))).length

/-- Token estimate of `Chunk.token_count`: `chinese_chars + (other_chars // 4)`
where `other_chars = len(content) - chinese_chars` and `//` is Python floor
division. -/
def Chunk.token_count (c : Chunk) : Nat :=
  let chinese_chars := cjkCount c.content
  let other_chars := c.content.length - chinese_chars
  chinese_chars + other_chars / 4

/-- Python slice `s[a:b]` on code points: negative indices count from the end,
then both bounds are clamped into `[0, len]`. -/
def pySlice (s : String) (a b : Int) : String :=
  let n : Int := s.length
  let norm : Int → Nat := fun i => (if i < 0 then max (n + i) 0 else min i n).toNat
  String.mk ((s.data.drop (norm a)).take (norm b - norm a))

/-- CPython's `str.isspace()` character set, which is what no-argument
`str.strip()` removes: `0x09`-`0x0D`, `0x1C`-`0x1F`, space, `0x85` (NEL),
`0xA0` (NBSP), `0x1680`, `0x2000`-`0x200A`, `0x2028`, `0x2029`, `0x202F`,
`0x205F` and `0x3000`. -/
def pyIsSpace (c : Char) : Bool :=
  (0x09 ≤ c.toNat && c.toNat ≤ 0x0d) ||
  (0x1c ≤ c.toNat && c.toNat ≤ 0x1f) ||
  c.toNat = 0x20 || c.toNat = 0x85 || c.toNat = 0xa0 ||
  c.toNat = 0x1680 ||
  (0x2000 ≤ c.toNat && c.toNat ≤ 0x200a) ||
  c.toNat = 0x2028 || c.toNat = 0x2029 || c.toNat = 0x202f ||
  c.toNat = 0x205f || c.toNat = 0x3000

/-- Truthiness of `chunk_text.strip()`: the slice holds at least one
character Python's strip does not remove. -/
def hasNonWs (s : String) : Bool := s.data.any (fun c => !(pyIsSpace c))

/-- The `while start < len(text)` loop of `FixedSizeChunker.chunk`, indexed by
fuel.  Each round takes the window `[start, min (start+chunk_size) len)`,
emits it when it is not whitespace-only, and advances
`start := end - overlap` while the window end is short of the text
(else `start := len`). -/
def fixedChunkLoop (cfg : ChunkConfig) (text : String) :
    Nat → Int → Nat → Option (List Chunk)
  | 0, _, _ => none
  | fuel+1, start, index =>
    if start < (text.length : Int) then
      let e : Int := min (start + cfg.chunk_size) text.length
      let chunk_text := pySlice text start e
      let nextStart : Int :=
        if e < (text.length : Int) then e - cfg.chunk_overlap else text.length
      if hasNonWs chunk_text then
        (fixedChunkLoop cfg text fuel nextStart (index + 1)).map
          (fun rest => ⟨chunk_text, index, start, e⟩ :: rest)
      else
        fixedChunkLoop cfg text fuel nextStart index
    else
      some []

/-- The entry point `FixedSizeChunker.chunk`: empty text short-circuits to
`[]`; otherwise the loop runs from `start = 0`, `index = 0`.  The fuel
`text.length + 2` is enough whenever the loop terminates at all (the start
strictly increases per round under `overlap < chunk_size`). -/
def fixed_size_chunk (cfg : ChunkConfig) (text : String) : Option (List Chunk) :=
  if text.length = 0 then some [] else
    fixedChunkLoop cfg text (text.length + 2) 0 0

/-- The sequence of `(start, end)` windows the loop slides over, with the same
start/end updates as `fixedChunkLoop` but independent of emission. -/
def pyWindows (cfg : ChunkConfig) (len : Int) : Nat → Int → List (Int × Int)
  | 0, _ => []
  | fuel+1, start =>
    if start < len then
      let e : Int := min (start + cfg.chunk_size) len
      (start, e) :: pyWindows cfg len fuel (if e < len then e - cfg.chunk_overlap else len)
    else []

/-! ## Hybrid fusion (backend/app/services/retrieval/hybrid_search.py)

Python dicts preserve insertion order, so `rrf_scores` / `weighted_scores` /
`result_map` are embedded as association lists where a new key is appended at
the end and an existing key is updated in place.  `list.sort(key=score,
reverse=True)` is CPython's stable sort, embedded as a stable descending
insertion sort. -/

/-- Search result, from `SearchResult` in retrieval/base.py.  The fields the
fusion code reads and rebuilds are kept; scores are `ℚ` for Python floats. -/
structure SearchResult where
  chunk_id : String
  document_id : String
  content : String
  score : ℚ
deriving DecidableEq

/-- Embeds `d[k] = d.get(k, 0) + v` on an insertion-ordered dict. -/
def dictAdd (m : List (String × ℚ)) (k : String) (v : ℚ) : List (String × ℚ) :=
  match m with
  | [] => [(k, v)]
  | (k', v') :: rest =>
    if k' = k then (k', v' + v) :: rest else (k', v') :: dictAdd rest k v

/-- Embeds `if k not in d: d[k] = r` (the `else` branch of the source only
annotates metadata, which is not modelled). -/
def dictSetIfAbsent (m : List (String × SearchResult)) (k : String)
    (r : SearchResult) : List (String × SearchResult) :=
  match m with
  | [] => [(k, r)]
  | (k', r') :: rest =>
    if k' = k then (k', r') :: rest else (k', r') :: dictSetIfAbsent rest k r

/-- First-match lookup in an insertion-ordered dict. -/
def dictFind (m : List (String × SearchResult)) (k : String) : Option SearchResult :=
  match m with
  | [] => none
  | (k', r') :: rest => if k' = k then some r' else dictFind rest k

/-- Stable descending insertion for `sortByScoreDesc`: an element moves left
past strictly smaller scores only, so equal scores keep their first-seen
order, as CPython's stable `sort(reverse=True)` does. -/
def insertDesc (r : SearchResult) : List SearchResult → List SearchResult
  | [] => [r]
  | x :: xs => if r.score < x.score then x :: insertDesc r xs else r :: x :: xs

/-- Embeds `fused_results.sort(key=lambda x: x.score, reverse=True)`. -/
def sortByScoreDesc (l : List SearchResult) : List SearchResult :=
  l.foldr insertDesc []

/-- Embeds the result-construction loop shared by the fusion methods: for
each scored chunk id take the first-seen `SearchResult` from `result_map`
and rebuild it with the fused score.  The `getD` default is dead code in the
source (the key is always present) and carries the same chunk id. -/
def buildFused (scores : List (String × ℚ))
    (rmap : List (String × SearchResult)) : List SearchResult :=
  scores.map (fun p =>
    let result := (dictFind rmap p.1).getD ⟨p.1, (""), (""), 0⟩
    ⟨result.chunk_id, result.document_id, result.content, p.2⟩)

/-- One pass of `_rrf_fusion` over a ranked list: `enumerate(results, start=1)`
adds `1 / (k + rank)` to each chunk id's score and records the first-seen
result. -/
def rrfPass (k : Nat) (results : List SearchResult)
    (acc : List (String × ℚ) × List (String × SearchResult)) :
    List (String × ℚ) × List (String × SearchResult) :=
  (List.enumFrom 1 results).foldl
    (fun acc p =>
      (dictAdd acc.1 p.2.chunk_id (1 / ((k : ℚ) + p.1)),
       dictSetIfAbsent acc.2 p.2.chunk_id p.2))
    acc

/-- Embeds `HybridRetriever._rrf_fusion`: both ranked lists are passed over
(semantic first), then the summed scores are rebuilt into results and sorted
by score descending (stable). -/
def rrf_fusion (semantic_results keyword_results : List SearchResult)
    (k : Nat) : List SearchResult :=
  let acc := rrfPass k keyword_results (rrfPass k semantic_results ([], []))
  sortByScoreDesc (buildFused acc.1 acc.2)

/-- Running minimum of `min(scores)` over a non-empty list. -/
def listMinScore (r : SearchResult) (rest : List SearchResult) : ℚ :=
  rest.foldl (fun a x => min a x.score) r.score

/-- Running maximum of `max(scores)` over a non-empty list. -/
def listMaxScore (r : SearchResult) (rest : List SearchResult) : ℚ :=
  rest.foldl (fun a x => max a x.score) r.score

/-- Embeds `HybridRetriever._normalize_scores`: min-max normalization, with
every score mapped to 1.0 when the maximum equals the minimum. -/
def normalize_scores (results : List SearchResult) : List ℚ :=
  match results with
  | [] => []
  | r :: rest =>
    let scores := (r :: rest).map (fun x => x.score)
    let min_score := listMinScore r rest
    let max_score := listMaxScore r rest
    if max_score = min_score then List.replicate (r :: rest).length (1 : ℚ)
    else scores.map (fun s => (s - min_score) / (max_score - min_score))

/-- One pass of `_weighted_fusion` over `zip(results, normalized)`: adds
`norm_score * weight` per chunk id and records the first-seen result. -/
def weightedPass (acc : List (String × ℚ) × List (String × SearchResult))
    (pairs : List (SearchResult × ℚ)) (weight : ℚ) :
    List (String × ℚ) × List (String × SearchResult) :=
  pairs.foldl
    (fun acc p =>
      (dictAdd acc.1 p.1.chunk_id (p.2 * weight),
       dictSetIfAbsent acc.2 p.1.chunk_id p.1))
    acc

/-- Embeds `HybridRetriever._weighted_fusion`: normalize each list, sum
weight-scaled scores per chunk id (semantic pass, then keyword pass), rebuild
and sort by score descending (stable). -/
def weighted_fusion (semantic_results keyword_results : List SearchResult)
    (semantic_weight keyword_weight : ℚ) : List SearchResult :=
  let semantic_normalized := normalize_scores semantic_results
  let keyword_normalized := normalize_scores keyword_results
  let acc := weightedPass
    (weightedPass ([], []) (semantic_results.zip semantic_normalized) semantic_weight)
    (keyword_results.zip keyword_normalized) keyword_weight
  sortByScoreDesc (buildFused acc.1 acc.2)

/-! ## Embedding client (backend/app/services/embeddings/openai_embedding.py) -/

/-- Embedding configuration, from `EmbeddingConfig` in embeddings/base.py;
the fields `_embed_batch` reads. -/
structure EmbeddingConfig where
  model : String
  dimension : Nat := 1536
  batch_size : Nat := 100
  max_retries : Nat := 3
deriving DecidableEq

/-- Result of an embedding call, from `EmbeddingResult`; usage is collapsed
to its `total_tokens` entry and the latency clock is not modelled. -/
structure EmbeddingResult where
  vectors : List (List ℚ)
  model : String
  total_tokens : Nat
deriving DecidableEq

/-- What one `client.post` attempt comes back with: an HTTP response carrying
the `data` array as `(index, embedding)` pairs, a timeout, or another
exception. -/
inductive EmbedAttempt where
  | resp (status : Nat) (data : List (Nat × List ℚ)) (model : String) (total_tokens : Nat)
  | timeout (msg : String)
  | exn (msg : String)
deriving DecidableEq

/-- Stable ascending insertion by the `index` field, embedding
`sorted(data, key=lambda x: x["index"])`. -/
def insertByIndex (x : Nat × List ℚ) :
    List (Nat × List ℚ) → List (Nat × List ℚ)
  | [] => [x]
  | y :: ys => if y.1 < x.1 then y :: insertByIndex x ys else x :: y :: ys

/-- Embeds the stable sort of the response `data` by `index`. -/
def sortByIndex (l : List (Nat × List ℚ)) : List (Nat × List ℚ) :=
  l.foldr insertByIndex []

/-- Message of the final `RuntimeError` after the retry loop. -/
def embedRetryError (config : EmbeddingConfig) (last_error : Option String) : String :=
  ("Embedding request failed after ") ++ toString config.max_retries
    ++ (" retries: ") ++ last_error.getD ("None")

/-- The `for attempt in range(max_retries)` loop of
`OpenAIEmbeddingService._embed_batch`: a 200 response returns the vectors
sorted by `index`; 429 and 5xx responses and exceptions retry after backoff;
any other status breaks out and the exhausted loop raises a `RuntimeError`
carrying the last error. -/
def embedBatchGo (config : EmbeddingConfig) (att : Nat → EmbedAttempt) :
    Nat → Nat → Option String → Except String EmbeddingResult
  | 0, _, last_error => .error (embedRetryError config last_error)
  | n+1, attempt, last_error =>
    match att attempt with
    | .resp status data model total_tokens =>
      if status = 200 then
        .ok ⟨(sortByIndex data).map Prod.snd, model, total_tokens⟩
      else
        let msg := ("API error: ") ++ toString status
        if status = 429 ∨ 500 ≤ status then
          embedBatchGo config att n (attempt + 1) (some msg)
        else
          .error (embedRetryError config (some msg))
    | .timeout m =>
      embedBatchGo config att n (attempt + 1) (some (("Request timeout: ") ++ m))
    | .exn m => embedBatchGo config att n (attempt + 1) (some m)

/-- Entry point of `_embed_batch`: run the retry loop from attempt 0 with no
recorded error. -/
def embed_batch (config : EmbeddingConfig) (att : Nat → EmbedAttempt) :
    Except String EmbeddingResult :=
  embedBatchGo config att config.max_retries 0 none

/-! ## Search cache (backend/app/services/retrieval/cache.py) -/

/-- Cache configuration, from `CacheConfig`. -/
structure CacheConfig where
  ttl : Nat := 3600
  enabled : Bool := true
  key_prefix : String := ("knowbase:search")
  max_results : Nat := 100
  cache_empty : Bool := true
deriving DecidableEq

/-- Outcomes of the awaited Redis operations inside the `try` blocks of
`SearchCache.get` / `SearchCache.set`: `Except.error` is any exception raised
by the store (connection, command, or payload decoding). -/
structure CacheEnv where
  getResult : Except String (Option (List SearchResult))
  setResult : Except String Unit

/-- Embeds `SearchCache.get`: disabled short-circuits to `None`; a store
error is caught and becomes `None`; a missing key is `None`; otherwise the
cached results are rebuilt. -/
def SearchCache.get (config : CacheConfig) (env : CacheEnv) :
    Option (List SearchResult) :=
  if config.enabled = false then none
  else
    match env.getResult with
    | .error _ => none
    | .ok none => none
    | .ok (some cached) => some cached

/-- Embeds `SearchCache.set`: disabled or empty-results-with-cache_empty-off
short-circuit to `False`; a store error is caught and becomes `False`;
otherwise `True`.  The stored value (`results[:max_results]` serialized) is
absorbed into the abstract store outcome. -/
def SearchCache.set (config : CacheConfig) (env : CacheEnv)
    (results : List SearchResult) : Bool :=
  if config.enabled = false then false
  else if results = [] ∧ config.cache_empty = false then false
  else
    match env.setResult with
    | .error _ => false
    | .ok _ => true

/-- Embeds `CachedRetrievalPipeline.search`: try the cache, on a hit return
it, otherwise run the pipeline (whose results are the `pipelineResults`
parameter), try to cache them, and return them. -/
def CachedRetrievalPipeline.search (config : CacheConfig) (env : CacheEnv)
    (pipelineResults : List SearchResult) (use_cache : Bool) :
    List SearchResult :=
  let cached := if use_cache then SearchCache.get config env else none
  match cached with
  | some cached_results => cached_results
  | none =>
    let _ := if use_cache then SearchCache.set config env pipelineResults else false
    pipelineResults

/-! ## TXT parser (backend/app/services/parsers/txt_parser.py) -/

/-- Latin-1 decoding of a byte string: every byte maps to the code point of
the same value, so it is total. -/
def latin1Decode (data : List (Fin 256)) : String :=
  String.mk (data.map (fun b => Char.ofNat b.val))

/-- The Python stdlib codecs for the fallible encodings in
`TxtParser.ENCODINGS`; a raised `UnicodeDecodeError` / `LookupError` is
`none`.  Latin-1 is not here: it is the concrete total `latin1Decode`. -/
structure TextCodecs where
  utf8 : List (Fin 256) → Option String
  utf8_sig : List (Fin 256) → Option String
  gbk : List (Fin 256) → Option String
  gb2312 : List (Fin 256) → Option String
  gb18030 : List (Fin 256) → Option String

/-- The decoder chain of `TxtParser.ENCODINGS` =
`["utf-8", "utf-8-sig", "gbk", "gb2312", "gb18030", "latin-1"]`. -/
def txtEncodings (codecs : TextCodecs) : List (List (Fin 256) → Option String) :=
  [codecs.utf8, codecs.utf8_sig, codecs.gbk, codecs.gb2312, codecs.gb18030,
   fun data => some (latin1Decode data)]

/-- The `for encoding in self.ENCODINGS` loop: first successful decode wins. -/
def decodeLoop (decoders : List (List (Fin 256) → Option String))
    (data : List (Fin 256)) : Option String :=
  match decoders with
  | [] => none
  | d :: ds =>
    match d data with
    | some content => some content
    | none => decodeLoop ds data

/-- Parsed document, from `ParsedDocument`: the full text, the byte size
recorded in the metadata, and the single page holding the whole content.
Title/word-count/language metadata are not modelled. -/
structure ParsedDocument where
  content : String
  file_size : Nat
  pages : List String
deriving DecidableEq

/-- Embeds `TxtParser.parse_bytes`: walk the encoding chain; if every decode
failed (`content is None`), fall back to latin-1 with `errors="replace"` —
which on bytes never replaces anything, so it is `latin1Decode` again. -/
def TxtParser.parse_bytes (codecs : TextCodecs) (data : List (Fin 256)) :
    ParsedDocument :=
  match decodeLoop (txtEncodings codecs) data with
  | some content => ⟨content, data.length, [content]⟩
  | none => ⟨latin1Decode data, data.length, [latin1Decode data]⟩

/-! ## Document processor (backend/app/services/document_processor.py)

`DocumentProcessor.process_document` is embedded as a small state machine
whose atomic steps are the database round-trips of the source: (pc 0) the
`SELECT` of the document row, (pc 1) the status check on the loaded snapshot
followed by the committed `status = PROCESSING` write, (pc 2) the outcome of
steps 3-8 (download / parse / chunk / embed / upsert, collapsed into a
`PipelineOutcome` environment) followed by the terminal commit: COMPLETED
with the chunk count on success, or the `except` handler's
`UPDATE ... SET status=FAILED` on any exception.  Two machines over a shared
document row model two concurrent calls; an interleaving is a schedule of
worker ids. -/

/-- Document status enum, from `DocumentStatus` in models/document.py. -/
inductive DocumentStatus where
  | pending | processing | completed | failed
deriving DecidableEq

/-- The document row fields the processor reads or the claim mentions. -/
structure DocumentRow where
  status : DocumentStatus
  chunk_count : Nat
  error_message : Option String
  retry_count : Nat
deriving DecidableEq

/-- Processing result, from `ProcessingResult` (document id, vector count
and wall-clock time omitted). -/
structure ProcessingResult where
  success : Bool
  chunk_count : Nat
  error_message : Option String
deriving DecidableEq

/-- Outcome of the fallible pipeline body (steps 3-8): a chunk count on
success, or the message of the raised exception. -/
inductive PipelineOutcome where
  | ok (chunks : Nat)
  | err (msg : String)
deriving DecidableEq

/-- Per-call state: program counter over the DB round-trips, the loaded
snapshot, and the returned `ProcessingResult` once finished (pc 9). -/
structure WorkerState where
  pc : Nat
  snap : Option (Option DocumentRow)
  result : Option ProcessingResult
deriving DecidableEq

/-- One atomic step of `process_document` against the shared row; also
reports the committed status transition, when the step wrote one. -/
def workerStep (force : Bool) (env : PipelineOutcome) (w : WorkerState)
    (doc : Option DocumentRow) :
    WorkerState × Option DocumentRow × Option (DocumentStatus × DocumentStatus) :=
  match w.pc with
  | 0 => ({ w with pc := 1, snap := some doc }, doc, none)
  | 1 =>
    match w.snap with
    | some none =>
      ({ w with pc := 9, result := some ⟨false, 0, some ("Document not found")⟩ },
       doc, none)
    | some (some snapshot) =>
      if snapshot.status = DocumentStatus.completed ∧ force = false then
        ({ w with pc := 9, result := some ⟨true, snapshot.chunk_count,
            some ("Document already processed")⟩ }, doc, none)
      else
        ({ w with pc := 2 },
         doc.map (fun d => { d with status := DocumentStatus.processing }),
         doc.map (fun d => (d.status, DocumentStatus.processing)))
    | none => (w, doc, none)
  | 2 =>
    match env with
    | .ok n =>
      ({ w with pc := 9, result := some ⟨true, n, none⟩ },
       doc.map (fun d => { d with status := DocumentStatus.completed, chunk_count := n }),
       doc.map (fun d => (d.status, DocumentStatus.completed)))
    | .err m =>
      ({ w with pc := 9, result := some ⟨false, 0, some m⟩ },
       doc.map (fun d => { d with status := DocumentStatus.failed }),
       doc.map (fun d => (d.status, DocumentStatus.failed)))
  | _ => (w, doc, none)

/-- The shared system: two in-flight calls, the shared row, and the log of
committed status transitions. -/
structure SysState where
  w1 : WorkerState
  w2 : WorkerState
  doc : Option DocumentRow
  transitions : List (DocumentStatus × DocumentStatus)
deriving DecidableEq

/-- Run one scheduled step: `false` steps the first call, `true` the second. -/
def schedStep (force1 force2 : Bool) (env1 env2 : PipelineOutcome)
    (s : SysState) (who : Bool) : SysState :=
  if who = false then
    let r := workerStep force1 env1 s.w1 s.doc
    ⟨r.1, s.w2, r.2.1, s.transitions ++ r.2.2.toList⟩
  else
    let r := workerStep force2 env2 s.w2 s.doc
    ⟨s.w1, r.1, r.2.1, s.transitions ++ r.2.2.toList⟩

/-- Run a schedule of interleaved steps from the initial state. -/
def runSched (force1 force2 : Bool) (env1 env2 : PipelineOutcome)
    (sched : List Bool) (doc : Option DocumentRow) : SysState :=
  sched.foldl (schedStep force1 force2 env1 env2)
    ⟨⟨0, none, none⟩, ⟨0, none, none⟩, doc, []⟩

/-- A single sequential `process_document` call: the first worker runs its
three DB steps back to back. -/
def process_document (force : Bool) (env : PipelineOutcome)
    (doc : Option DocumentRow) : SysState :=
  runSched force force env env [false, false, false] doc

lemma cjk_count_split (s : String) : cjkCount s + nonCjkCount s = s.length := by
  show (s.data.filter isCJK).length + (s.data.filter (fun c => !(isCJK c))).length
      = s.data.length
  induction s.data with
  | nil => rfl
  | cons c l ih =>
    by_cases h : isCJK c = true <;> simp [List.filter_cons, h] <;> omega

lemma cjk_count_le (s : String) : cjkCount s ≤ s.length := by
  have := cjk_count_split s; omega

/-- Helper: with `overlap < chunk_size`, the loop consumes at most
`(len - start) + 2` rounds, so that much fuel yields a result. -/
lemma fixedChunkLoop_isSome (cfg : ChunkConfig) (text : String)
    (hov : cfg.chunk_overlap < cfg.chunk_size) :
    ∀ (fuel : Nat) (start : Int) (index : Nat), 0 ≤ start →
      ((text.length : Int) - start).toNat + 2 ≤ fuel →
      (fixedChunkLoop cfg text fuel start index).isSome = true := by
  intro fuel
  induction fuel with
  | zero => intro start index _ h; omega
  | succ fuel ih =>
    intro start index hstart hfuel
    rw [fixedChunkLoop]
    by_cases hlt : start < (text.length : Int)
    · simp only [hlt, if_pos]
      set e : Int := min (start + cfg.chunk_size) text.length with he
      have he_le : e ≤ (text.length : Int) := min_le_right _ _
      by_cases hend : e < (text.length : Int)
      · have heq : e = start + cfg.chunk_size := by
          rcases le_or_lt (start + (cfg.chunk_size : Int)) (text.length : Int) with h | h
          · simp [he, min_eq_left h]
          · exfalso; rw [he, min_eq_right h.le] at hend; omega
        have hrec : (fixedChunkLoop cfg text fuel (e - cfg.chunk_overlap) (index + 1)).isSome
            = true ∧ (fixedChunkLoop cfg text fuel (e - cfg.chunk_overlap) index).isSome
            = true := by
          constructor <;> refine ih _ _ (by omega) (by omega)
        simp only [hend, if_pos]
        by_cases hws : hasNonWs (pySlice text start e) = true
        · simp only [hws, if_pos, Option.isSome_map']; exact hrec.1
        · simp only [hws, if_neg, Bool.not_eq_true]; exact hrec.2
      · have hrec : ∀ j, (fixedChunkLoop cfg text fuel (text.length : Int) j).isSome
            = true := by
          intro j; refine ih _ _ (by omega) (by omega)
        simp only [hend, if_neg, Bool.not_eq_true]
        by_cases hws : hasNonWs (pySlice text start e) = true
        · simp only [hws, if_pos, Option.isSome_map']; exact hrec _
        · simp only [hws, if_neg, Bool.not_eq_true]; exact hrec _
    · simp [hlt]

/-- Helper: with `overlap ≥ chunk_size` and text longer than `chunk_size`, a
non-positive `start` stays non-positive and below `len`, so the loop never
exits: every fuel runs out. -/
lemma fixedChunkLoop_none (cfg : ChunkConfig) (text : String)
    (hov : cfg.chunk_size ≤ cfg.chunk_overlap)
    (hlen : (cfg.chunk_size : Int) < (text.length : Int)) :
    ∀ (fuel : Nat) (start : Int) (index : Nat), start ≤ 0 →
      fixedChunkLoop cfg text fuel start index = none := by
  intro fuel
  induction fuel with
  | zero => intro start index _; rfl
  | succ fuel ih =>
    intro start index hstart
    have hlt : start < (text.length : Int) := by omega
    have hmin : min (start + (cfg.chunk_size : Int)) (text.length : Int)
        = start + cfg.chunk_size := min_eq_left (by omega)
    rw [fixedChunkLoop]
    simp only [hlt, if_pos, hmin]
    have hend : start + (cfg.chunk_size : Int) < (text.length : Int) := by omega
    simp only [hend, if_pos]
    have hrec := fun j => ih (start + (cfg.chunk_size : Int) - cfg.chunk_overlap) j (by omega)
    by_cases hws : hasNonWs (pySlice text start (start + (cfg.chunk_size : Int))) = true
    · simp only [hws, if_pos, hrec, Option.map_none']
    · simp only [hws, if_neg, Bool.not_eq_true, hrec]

/-- Helper: when every window of the slide holds a non-whitespace character,
no window is dropped and the loop returns exactly the windows, contents
sliced out and indices counted up from `index`. -/
lemma fixedChunkLoop_eq_windows (cfg : ChunkConfig) (text : String)
    (hov : cfg.chunk_overlap < cfg.chunk_size) :
    ∀ (fuel : Nat) (start : Int) (index : Nat), 0 ≤ start →
      ((text.length : Int) - start).toNat + 2 ≤ fuel →
      (∀ w ∈ pyWindows cfg text.length fuel start,
        hasNonWs (pySlice text w.1 w.2) = true) →
      fixedChunkLoop cfg text fuel start index =
        some ((List.enumFrom index (pyWindows cfg text.length fuel start)).map
          (fun p => ⟨pySlice text p.2.1 p.2.2, p.1, p.2.1, p.2.2⟩)) := by
  intro fuel
  induction fuel with
  | zero => intro start index _ h; omega
  | succ fuel ih =>
    intro start index hstart hfuel hws
    rw [pyWindows] at hws
    rw [fixedChunkLoop, pyWindows]
    by_cases hlt : start < (text.length : Int)
    · rw [if_pos hlt] at hws
      rw [if_pos hlt, if_pos hlt]
      set e : Int := min (start + cfg.chunk_size) text.length with he
      have he_le : e ≤ (text.length : Int) := min_le_right _ _
      have hhead := hws (start, e) (List.mem_cons_self _ _)
      simp only [hhead, if_pos]
      have htail : ∀ w ∈ pyWindows cfg text.length fuel
          (if e < (text.length : Int) then e - cfg.chunk_overlap else text.length),
          hasNonWs (pySlice text w.1 w.2) = true := by
        intro w hw; exact hws w (List.mem_cons_of_mem _ hw)
      have hrec : fixedChunkLoop cfg text fuel
          (if e < (text.length : Int) then e - cfg.chunk_overlap else text.length)
          (index + 1) =
          some ((List.enumFrom (index + 1) (pyWindows cfg text.length fuel
            (if e < (text.length : Int) then e - cfg.chunk_overlap else text.length))).map
            (fun p => ⟨pySlice text p.2.1 p.2.2, p.1, p.2.1, p.2.2⟩)) := by
        by_cases hend : e < (text.length : Int)
        · have heq : e = start + cfg.chunk_size := by
            rcases le_or_lt (start + (cfg.chunk_size : Int)) (text.length : Int) with h | h
            · simp [he, min_eq_left h]
            · exfalso; rw [he, min_eq_right h.le] at hend; omega
          rw [if_pos hend] at htail ⊢
          exact ih _ _ (by omega) (by omega) htail
        · rw [if_neg hend] at htail ⊢
          exact ih _ _ (by omega) (by omega) htail
      rw [hrec, Option.map_some']
      simp [List.enumFrom]
    · simp [hlt]

/-- Helper: adjacent windows of the slide satisfy the sliding relation: the
next start is the previous end minus the overlap, ends are non-decreasing and
starts are non-decreasing (the latter two need `overlap < chunk_size`). -/
lemma pyWindows_chain (cfg : ChunkConfig) (len : Int)
    (hov : cfg.chunk_overlap < cfg.chunk_size) :
    ∀ (fuel : Nat) (start : Int),
      List.Chain' (fun w w' : Int × Int =>
        w'.1 = w.2 - cfg.chunk_overlap ∧ w.2 ≤ w'.2 ∧ w.1 ≤ w'.1)
        (pyWindows cfg len fuel start) := by
  intro fuel
  induction fuel with
  | zero => intro start; rw [pyWindows]; exact List.chain'_nil
  | succ fuel ih =>
    intro start
    rw [pyWindows]
    by_cases hlt : start < len
    · simp only [hlt, if_pos]
      set e : Int := min (start + cfg.chunk_size) len with he
      refine List.chain'_cons'.mpr ⟨?_, ih _⟩
      intro w' hw'
      by_cases hend : e < len
      · have heq : e = start + cfg.chunk_size := by
          rcases le_or_lt (start + (cfg.chunk_size : Int)) len with h | h
          · simp [he, min_eq_left h]
          · exfalso; rw [he, min_eq_right h.le] at hend; omega
        simp only [hend, if_pos] at hw'
        cases fuel with
        | zero => rw [pyWindows] at hw'; simp at hw'
        | succ fuel' =>
          rw [pyWindows] at hw'
          by_cases hlt' : e - (cfg.chunk_overlap : Int) < len
          · simp only [hlt', if_pos, List.head?_cons, Option.mem_def,
              Option.some.injEq] at hw'
            subst hw'
            refine ⟨rfl, le_min (by omega) (by omega), by omega⟩
          · simp [hlt'] at hw'
      · simp only [hend, if_neg, Bool.not_eq_true] at hw'
        cases fuel with
        | zero => rw [pyWindows] at hw'; simp at hw'
        | succ fuel' =>
          rw [pyWindows] at hw'
          simp [lt_irrefl] at hw'
    · simp [hlt]

/-- Helper: a chain over a list lifts to a chain over its enumeration. -/
lemma chain'_enumFrom {α : Type} (R : α → α → Prop)
    (S : (Nat × α) → (Nat × α) → Prop)
    (h : ∀ (i j : Nat) (a b : α), R a b → S (i, a) (j, b)) :
    ∀ (l : List α) (idx : Nat), List.Chain' R l →
      List.Chain' S (List.enumFrom idx l) := by
  intro l
  induction l with
  | nil => intro idx _; exact List.chain'_nil
  | cons a l ih =>
    intro idx hc
    rw [List.enumFrom]
    refine List.chain'_cons'.mpr ⟨?_, ih _ hc.tail⟩
    intro p hp
    cases l with
    | nil => simp [List.enumFrom] at hp
    | cons b l' =>
      simp only [List.enumFrom, List.head?_cons, Option.mem_def,
        Option.some.injEq] at hp
      subst hp
      exact h _ _ _ _ (List.chain'_cons.mp hc).1

/-- C8, counterexample.  The spec estimates tokens as
`CJK_chars + ceil(non_CJK_chars / 4)`, but `Chunk.token_count` uses Python
floor division: on the one-character content the code yields 0 while the
ceiling formula yields 1. -/
theorem token_count_ceil_counterexample :
    Chunk.token_count ⟨("a"), 0, 0, 1⟩ = 0 ∧
    Chunk.token_count ⟨("a"), 0, 0, 1⟩ ≠
      cjkCount ("a") + (nonCjkCount ("a") + 3) / 4 := by
  constructor
  · rfl
  · decide

/-- C8, amended.  The estimated token count equals the number of CJK
characters plus the floor (not the ceiling) of the number of non-CJK
characters divided by 4. -/
theorem token_count_floor (c : Chunk) :
    c.token_count = cjkCount c.content + nonCjkCount c.content / 4 := by
  have h := cjk_count_split c.content
  show cjkCount c.content + (c.content.length - cjkCount c.content) / 4
      = cjkCount c.content + nonCjkCount c.content / 4
  omega

/-- C9.  The fixed-size chunker terminates for every text when
`chunk_overlap < chunk_size` (the window start strictly increases), and with
`chunk_overlap ≥ chunk_size` and a text longer than `chunk_size` the loop
never exits — it exhausts every fuel bound. -/
theorem fixed_chunker_termination :
    (∀ (cfg : ChunkConfig) (text : String), cfg.chunk_overlap < cfg.chunk_size →
      (fixed_size_chunk cfg text).isSome = true) ∧
    (∀ (cfg : ChunkConfig) (text : String) (fuel index : Nat),
      cfg.chunk_size ≤ cfg.chunk_overlap → cfg.chunk_size < text.length →
      fixedChunkLoop cfg text fuel 0 index = none) := by
  constructor
  · intro cfg text hov
    rw [fixed_size_chunk]
    by_cases hz : text.length = 0
    · simp [hz]
    · rw [if_neg hz]
      exact fixedChunkLoop_isSome cfg text hov _ 0 0 le_rfl (by omega)
  · intro cfg text fuel index hov hlen
    exact fixedChunkLoop_none cfg text hov (by exact_mod_cast hlen) fuel 0 index le_rfl

/-- C9, witness: with size 2 and overlap 1 the chunker returns on a
3-character text; with size 2 and overlap 2 the loop returns `none` at any
fuel (here 9). -/
theorem fixed_chunker_termination_witness :
    (fixed_size_chunk ⟨2, 1⟩ ("abc")).isSome = true ∧
    fixedChunkLoop ⟨2, 2⟩ ("abc") 9 0 0 = none :=
  ⟨fixed_chunker_termination.1 ⟨2, 1⟩ ("abc") (by decide),
   fixed_chunker_termination.2 ⟨2, 2⟩ ("abc") 9 0 (by decide) (by decide)⟩

/-- C6, counterexample.  On the text `"a   b"` with `chunk_size = 2`,
`overlap = 0` (text longer than the chunk size), the middle window is
whitespace-only and is dropped, so the second emitted chunk starts at 4,
not at the previous chunk's `end_char - overlap = 2`. -/
theorem fixed_chunk_adjacency_counterexample :
    fixed_size_chunk ⟨2, 0⟩ ("a   b") =
      some [⟨("a "), 0, 0, 2⟩, ⟨("b"), 1, 4, 5⟩] ∧
    2 < ("a   b" : String).length ∧
    ¬ ((4 : Int) = 2 - (0 : Int)) := by
  refine ⟨by rfl, by decide, by decide⟩

/-- C6, amended.  With `overlap < chunk_size` and text longer than
`chunk_size`, and provided no window of the slide is whitespace-only (so no
chunk is dropped), the fixed-size chunker returns chunks in which each
non-first chunk's `start_char` equals the previous chunk's
`end_char - overlap`, and consecutive chunks share at least `overlap`
characters of the source (their ranges intersect in an interval of length
`overlap`). -/
theorem fixed_chunk_adjacency (cfg : ChunkConfig) (text : String)
    (hov : cfg.chunk_overlap < cfg.chunk_size)
    (hlen : cfg.chunk_size < text.length)
    (hws : ∀ w ∈ pyWindows cfg text.length (text.length + 2) 0,
      hasNonWs (pySlice text w.1 w.2) = true) :
    (fixed_size_chunk cfg text).isSome = true ∧
    ∀ chunks, fixed_size_chunk cfg text = some chunks →
      List.Chain' (fun c c' : Chunk =>
        c'.start_char = c.end_char - cfg.chunk_overlap ∧
        (cfg.chunk_overlap : Int) ≤
          min c.end_char c'.end_char - max c.start_char c'.start_char) chunks := by
  have hz : ¬ text.length = 0 := by omega
  have heq : fixed_size_chunk cfg text =
      some ((List.enumFrom 0 (pyWindows cfg text.length (text.length + 2) 0)).map
        (fun p => ⟨pySlice text p.2.1 p.2.2, p.1, p.2.1, p.2.2⟩)) := by
    rw [fixed_size_chunk, if_neg hz]
    exact fixedChunkLoop_eq_windows cfg text hov _ 0 0 le_rfl (by omega) hws
  refine ⟨by rw [heq]; rfl, ?_⟩
  intro chunks hc
  rw [heq] at hc
  injection hc with hc
  subst hc
  have hwchain := pyWindows_chain cfg text.length hov (text.length + 2) 0
  have hlift := chain'_enumFrom
    (fun w w' : Int × Int =>
      w'.1 = w.2 - cfg.chunk_overlap ∧ w.2 ≤ w'.2 ∧ w.1 ≤ w'.1)
    (fun p q : Nat × (Int × Int) =>
      q.2.1 = p.2.2 - cfg.chunk_overlap ∧ p.2.2 ≤ q.2.2 ∧ p.2.1 ≤ q.2.1)
    (fun _ _ _ _ h => h) _ 0 hwchain
  rw [List.chain'_map]
  refine hlift.imp ?_
  rintro ⟨i, s, e⟩ ⟨j, s', e'⟩ ⟨h1, h2, h3⟩
  refine ⟨h1, ?_⟩
  simp only
  rw [min_eq_left h2, max_eq_right h3]
  omega

/-- C6, witness: on `"abcdefgh"` with size 3 and overlap 1 no window is
whitespace-only; the chunker yields four chunks whose adjacent pairs satisfy
the amended sliding relation. -/
theorem fixed_chunk_adjacency_witness :
    (fixed_size_chunk ⟨3, 1⟩ ("abcdefgh")).isSome = true ∧
    List.Chain' (fun c c' : Chunk =>
      c'.start_char = c.end_char - (1 : Nat) ∧
      ((1 : Nat) : Int) ≤
        min c.end_char c'.end_char - max c.start_char c'.start_char)
      [⟨("abc"), 0, 0, 3⟩, ⟨("cde"), 1, 2, 5⟩, ⟨("efg"), 2, 4, 7⟩, ⟨("gh"), 3, 6, 8⟩] :=
  ⟨(fixed_chunk_adjacency ⟨3, 1⟩ ("abcdefgh") (by decide) (by decide) (by decide)).1,
   (fixed_chunk_adjacency ⟨3, 1⟩ ("abcdefgh") (by decide) (by decide) (by decide)).2
     _ (by rfl)⟩

/-- C3, counterexample.  On the S3 lists semantic=[A,B,C,D], keyword=[C,A,E,F]
with k=60, the fused order is not C,A,B,E,D,F, and A and C are not tied:
A's score 1/61+1/62 strictly exceeds C's 1/61+1/63. -/
theorem rrf_s3_counterexample :
    (rrf_fusion
      [⟨("A"), (""), (""), 9/10⟩, ⟨("B"), (""), (""), 8/10⟩,
       ⟨("C"), (""), (""), 7/10⟩, ⟨("D"), (""), (""), 6/10⟩]
      [⟨("C"), (""), (""), 5/10⟩, ⟨("A"), (""), (""), 4/10⟩,
       ⟨("E"), (""), (""), 3/10⟩, ⟨("F"), (""), (""), 2/10⟩]
      60).map (fun r => r.chunk_id) ≠ [("C"), ("A"), ("B"), ("E"), ("D"), ("F")] ∧
    (1 : ℚ)/61 + 1/62 ≠ 1/63 + 1/61 := by
  constructor
  · norm_num [rrf_fusion, rrfPass, buildFused, sortByScoreDesc, List.enumFrom,
      dictAdd, dictSetIfAbsent, dictFind, insertDesc,
      show ((("A") : String) = ("B")) = False from by decide,
      show ((("A") : String) = ("C")) = False from by decide,
      show ((("A") : String) = ("D")) = False from by decide,
      show ((("A") : String) = ("E")) = False from by decide,
      show ((("A") : String) = ("F")) = False from by decide,
      show ((("B") : String) = ("C")) = False from by decide,
      show ((("B") : String) = ("D")) = False from by decide,
      show ((("B") : String) = ("E")) = False from by decide,
      show ((("B") : String) = ("F")) = False from by decide,
      show ((("C") : String) = ("D")) = False from by decide,
      show ((("C") : String) = ("E")) = False from by decide,
      show ((("C") : String) = ("F")) = False from by decide,
      show ((("D") : String) = ("E")) = False from by decide,
      show ((("D") : String) = ("F")) = False from by decide,
      show ((("E") : String) = ("F")) = False from by decide,
      show ((("C") : String) = ("A")) = False from by decide]
  · norm_num

/-- C3, amended.  RRF with k=60 on semantic=[A,B,C,D], keyword=[C,A,E,F]
assigns the summed scores A=1/61+1/62, B=1/62, C=1/63+1/61, D=1/64, E=1/63,
F=1/64 and returns the order A, C, B, E, D, F: A is strictly above C (no
tie), and the tie between D and F is broken by first occurrence. -/
theorem rrf_s3_order :
    (rrf_fusion
      [⟨("A"), (""), (""), 9/10⟩, ⟨("B"), (""), (""), 8/10⟩,
       ⟨("C"), (""), (""), 7/10⟩, ⟨("D"), (""), (""), 6/10⟩]
      [⟨("C"), (""), (""), 5/10⟩, ⟨("A"), (""), (""), 4/10⟩,
       ⟨("E"), (""), (""), 3/10⟩, ⟨("F"), (""), (""), 2/10⟩]
      60).map (fun r => (r.chunk_id, r.score)) =
    [(("A"), (1 : ℚ)/61 + 1/62), (("C"), 1/63 + 1/61), (("B"), 1/62),
     (("E"), 1/63), (("D"), 1/64), (("F"), 1/64)] := by
  norm_num [rrf_fusion, rrfPass, buildFused, sortByScoreDesc, List.enumFrom,
    dictAdd, dictSetIfAbsent, dictFind, insertDesc,
    show ((("A") : String) = ("B")) = False from by decide,
    show ((("A") : String) = ("C")) = False from by decide,
    show ((("A") : String) = ("D")) = False from by decide,
    show ((("A") : String) = ("E")) = False from by decide,
    show ((("A") : String) = ("F")) = False from by decide,
    show ((("B") : String) = ("C")) = False from by decide,
    show ((("B") : String) = ("D")) = False from by decide,
    show ((("B") : String) = ("E")) = False from by decide,
    show ((("B") : String) = ("F")) = False from by decide,
    show ((("C") : String) = ("D")) = False from by decide,
    show ((("C") : String) = ("E")) = False from by decide,
    show ((("C") : String) = ("F")) = False from by decide,
    show ((("D") : String) = ("E")) = False from by decide,
    show ((("D") : String) = ("F")) = False from by decide,
    show ((("E") : String) = ("F")) = False from by decide]

lemma dictAdd_absent (m : List (String × ℚ)) (k : String) (v : ℚ)
    (h : k ∉ m.map Prod.fst) : dictAdd m k v = m ++ [(k, v)] := by
  induction m with
  | nil => rfl
  | cons p rest ih =>
    obtain ⟨k', v'⟩ := p
    simp only [List.map_cons, List.mem_cons] at h
    push_neg at h
    rw [dictAdd, if_neg (fun he => h.1 he.symm), ih h.2, List.cons_append]

lemma dictAdd_middle (xs ys : List (String × ℚ)) (k : String) (v s : ℚ)
    (h : k ∉ xs.map Prod.fst) :
    dictAdd (xs ++ (k, v) :: ys) k s = xs ++ (k, v + s) :: ys := by
  induction xs with
  | nil => simp [dictAdd]
  | cons p rest ih =>
    obtain ⟨k', v'⟩ := p
    simp only [List.map_cons, List.mem_cons] at h
    push_neg at h
    rw [List.cons_append, dictAdd, if_neg (fun he => h.1 he.symm), ih h.2,
      List.cons_append]

lemma dictSetIfAbsent_inv (m : List (String × SearchResult)) (k : String)
    (r : SearchResult) (h : ∀ p ∈ m, (p : String × SearchResult).2.chunk_id = p.1)
    (hr : r.chunk_id = k) :
    ∀ p ∈ dictSetIfAbsent m k r, (p : String × SearchResult).2.chunk_id = p.1 := by
  induction m with
  | nil => intro p hp; simp only [dictSetIfAbsent, List.mem_singleton] at hp; simp [hp, hr]
  | cons q rest ih =>
    obtain ⟨k', r'⟩ := q
    intro p hp
    rw [dictSetIfAbsent] at hp
    by_cases hk : k' = k
    · rw [if_pos hk] at hp
      exact h p hp
    · rw [if_neg hk] at hp
      rcases List.mem_cons.mp hp with hp | hp
      · exact h p (by simp [hp])
      · exact ih (fun q hq => h q (List.mem_cons_of_mem _ hq)) p hp

lemma dictFind_mem (m : List (String × SearchResult)) (k : String)
    (r : SearchResult) (h : dictFind m k = some r) : (k, r) ∈ m := by
  induction m with
  | nil => simp [dictFind] at h
  | cons q rest ih =>
    obtain ⟨k', r'⟩ := q
    rw [dictFind] at h
    by_cases hk : k' = k
    · rw [if_pos hk] at h
      injection h with h
      subst hk; subst h
      exact List.mem_cons_self _ _
    · rw [if_neg hk] at h
      exact List.mem_cons_of_mem _ (ih h)

lemma buildFused_ids (scores : List (String × ℚ))
    (rmap : List (String × SearchResult))
    (h : ∀ p ∈ rmap, (p : String × SearchResult).2.chunk_id = p.1) :
    (buildFused scores rmap).map (fun r => r.chunk_id) = scores.map Prod.fst := by
  induction scores with
  | nil => rfl
  | cons p rest ih =>
    rw [buildFused, List.map_cons, List.map_cons]
    rw [buildFused] at ih
    rw [ih]
    congr 1
    cases hf : dictFind rmap p.1 with
    | none => simp
    | some r => simpa using h (p.1, r) (dictFind_mem rmap p.1 r hf)

lemma buildFused_map (scores : List (String × ℚ))
    (rmap : List (String × SearchResult)) :
    ∃ f : (String × ℚ) → SearchResult,
      buildFused scores rmap = scores.map f ∧ ∀ p, (f p).score = p.2 :=
  ⟨_, rfl, fun _ => rfl⟩

lemma sortByScoreDesc_sorted_id (l : List SearchResult)
    (h : List.Chain' (fun a b => b.score ≤ a.score) l) : sortByScoreDesc l = l := by
  induction l with
  | nil => rfl
  | cons x xs ih =>
    show insertDesc x (sortByScoreDesc xs) = x :: xs
    rw [ih h.tail]
    cases xs with
    | nil => rfl
    | cons y ys =>
      have hxy : y.score ≤ x.score := (List.chain'_cons.mp h).1
      rw [insertDesc, if_neg (by exact not_lt.mpr hxy)]

lemma weightedPass_fst_fresh :
    ∀ (ps : List (SearchResult × ℚ)) (m : List (String × ℚ))
      (rmap : List (String × SearchResult)) (w : ℚ),
      (∀ p ∈ ps, (p : SearchResult × ℚ).1.chunk_id ∉ m.map Prod.fst) →
      (ps.map (fun p => p.1.chunk_id)).Nodup →
      (weightedPass (m, rmap) ps w).1 = m ++ ps.map (fun p => (p.1.chunk_id, p.2 * w)) := by
  intro ps
  induction ps with
  | nil => intro m rmap w _ _; simp [weightedPass]
  | cons p rest ih =>
    intro m rmap w hfresh hnodup
    show (weightedPass (dictAdd m p.1.chunk_id (p.2 * w),
      dictSetIfAbsent rmap p.1.chunk_id p.1) rest w).1 = _
    rw [dictAdd_absent m _ _ (hfresh p (List.mem_cons_self _ _))]
    rw [ih (m ++ [(p.1.chunk_id, p.2 * w)]) _ w ?_ (List.nodup_cons.mp hnodup).2]
    · simp
    · intro q hq
      simp only [List.map_append, List.mem_append, List.map_cons, List.map_nil,
        List.mem_singleton, not_or]
      refine ⟨hfresh q (List.mem_cons_of_mem _ hq), ?_⟩
      intro hcontra
      apply (List.nodup_cons.mp hnodup).1
      show p.1.chunk_id ∈ List.map (fun p => p.1.chunk_id) rest
      rw [← hcontra]
      exact List.mem_map_of_mem _ hq

lemma weightedPass_fst_existing (f : SearchResult × ℚ → ℚ) :
    ∀ (ps : List (SearchResult × ℚ)) (pre : List (String × ℚ))
      (rmap : List (String × SearchResult)) (w : ℚ),
      (∀ p ∈ ps, (p : SearchResult × ℚ).1.chunk_id ∉ pre.map Prod.fst) →
      (ps.map (fun p => p.1.chunk_id)).Nodup →
      (weightedPass (pre ++ ps.map (fun p => (p.1.chunk_id, f p)), rmap) ps w).1 =
        pre ++ ps.map (fun p => (p.1.chunk_id, f p + p.2 * w)) := by
  intro ps
  induction ps with
  | nil => intro pre rmap w _ _; simp [weightedPass]
  | cons p rest ih =>
    intro pre rmap w hfresh hnodup
    show (weightedPass
      (dictAdd (pre ++ (p.1.chunk_id, f p) :: rest.map (fun q => (q.1.chunk_id, f q)))
        p.1.chunk_id (p.2 * w), _) rest w).1 = _
    rw [dictAdd_middle pre _ _ _ _ (hfresh p (List.mem_cons_self _ _))]
    have hshift : pre ++ (p.1.chunk_id, f p + p.2 * w) :: rest.map (fun q => (q.1.chunk_id, f q))
        = (pre ++ [(p.1.chunk_id, f p + p.2 * w)]) ++ rest.map (fun q => (q.1.chunk_id, f q)) := by
      simp
    rw [hshift, ih (pre ++ [(p.1.chunk_id, f p + p.2 * w)]) _ w ?_ (List.nodup_cons.mp hnodup).2]
    · simp
    · intro q hq
      simp only [List.map_append, List.mem_append, List.map_cons, List.map_nil,
        List.mem_singleton, not_or]
      refine ⟨hfresh q (List.mem_cons_of_mem _ hq), ?_⟩
      intro hcontra
      apply (List.nodup_cons.mp hnodup).1
      show p.1.chunk_id ∈ List.map (fun p => p.1.chunk_id) rest
      rw [← hcontra]
      exact List.mem_map_of_mem _ hq

lemma weightedPass_snd_inv (w : ℚ) :
    ∀ (ps : List (SearchResult × ℚ))
      (acc : List (String × ℚ) × List (String × SearchResult)),
      (∀ p ∈ acc.2, (p : String × SearchResult).2.chunk_id = p.1) →
      ∀ p ∈ (weightedPass acc ps w).2, (p : String × SearchResult).2.chunk_id = p.1 := by
  intro ps
  induction ps with
  | nil => intro acc h; exact h
  | cons p rest ih =>
    intro acc h
    exact ih _ (dictSetIfAbsent_inv acc.2 p.1.chunk_id p.1 h rfl)

lemma foldl_min_le_init (l : List SearchResult) :
    ∀ a : ℚ, l.foldl (fun a x => min a x.score) a ≤ a := by
  induction l with
  | nil => intro a; exact le_rfl
  | cons x xs ih =>
    intro a
    exact le_trans (ih (min a x.score)) (min_le_left _ _)

lemma foldl_min_le_mem (l : List SearchResult) :
    ∀ (a : ℚ) (x : SearchResult), x ∈ l →
      l.foldl (fun a y => min a y.score) a ≤ x.score := by
  induction l with
  | nil => intro a x hx; simp at hx
  | cons y ys ih =>
    intro a x hx
    rcases List.mem_cons.mp hx with hx | hx
    · subst hx
      exact le_trans (foldl_min_le_init ys _) (min_le_right _ _)
    · exact ih _ x hx

lemma foldl_max_ge_init (l : List SearchResult) :
    ∀ a : ℚ, a ≤ l.foldl (fun a x => max a x.score) a := by
  induction l with
  | nil => intro a; exact le_rfl
  | cons x xs ih =>
    intro a
    exact le_trans (le_max_left _ _) (ih (max a x.score))

lemma foldl_max_ge_mem (l : List SearchResult) :
    ∀ (a : ℚ) (x : SearchResult), x ∈ l →
      x.score ≤ l.foldl (fun a y => max a y.score) a := by
  induction l with
  | nil => intro a x hx; simp at hx
  | cons y ys ih =>
    intro a x hx
    rcases List.mem_cons.mp hx with hx | hx
    · subst hx
      exact le_trans (le_max_right _ _) (foldl_max_ge_init ys _)
    · exact ih _ x hx

lemma listMinScore_le (r : SearchResult) (rest : List SearchResult) :
    ∀ x ∈ r :: rest, listMinScore r rest ≤ x.score := by
  intro x hx
  rcases List.mem_cons.mp hx with hx | hx
  · subst hx; exact foldl_min_le_init rest _
  · exact foldl_min_le_mem rest _ x hx

lemma listMaxScore_ge (r : SearchResult) (rest : List SearchResult) :
    ∀ x ∈ r :: rest, x.score ≤ listMaxScore r rest := by
  intro x hx
  rcases List.mem_cons.mp hx with hx | hx
  · subst hx; exact foldl_max_ge_init rest _
  · exact foldl_max_ge_mem rest _ x hx

lemma listMinScore_le_max (r : SearchResult) (rest : List SearchResult) :
    listMinScore r rest ≤ listMaxScore r rest :=
  le_trans (listMinScore_le r rest r (List.mem_cons_self _ _))
    (listMaxScore_ge r rest r (List.mem_cons_self _ _))

lemma normalize_scores_length (rs : List SearchResult) :
    (normalize_scores rs).length = rs.length := by
  cases rs with
  | nil => rfl
  | cons r rest =>
    rw [normalize_scores]
    by_cases h : listMaxScore r rest = listMinScore r rest
    · rw [if_pos h, List.length_replicate]
    · rw [if_neg h, List.length_map, List.length_map]

lemma normalize_scores_chain (rs : List SearchResult)
    (h : List.Chain' (fun a b : SearchResult => b.score ≤ a.score) rs) :
    List.Chain' (fun a b : ℚ => b ≤ a) (normalize_scores rs) := by
  cases rs with
  | nil => exact List.chain'_nil
  | cons r rest =>
    rw [normalize_scores]
    by_cases heq : listMaxScore r rest = listMinScore r rest
    · rw [if_pos heq]
      exact List.chain'_replicate_of_rel _ le_rfl
    · rw [if_neg heq]
      have hd : 0 < listMaxScore r rest - listMinScore r rest :=
        sub_pos.mpr (lt_of_le_of_ne (listMinScore_le_max r rest) (Ne.symm heq))
      rw [List.map_map]
      refine (List.chain'_map _).mpr (h.imp ?_)
      intro a b hba
      show (b.score - listMinScore r rest) / (listMaxScore r rest - listMinScore r rest)
          ≤ (a.score - listMinScore r rest) / (listMaxScore r rest - listMinScore r rest)
      gcongr

/-- C7.  Min-max normalization maps into `[0, 1]`, collapses to all-ones when
a list's max equals its min, and consequently weighted fusion of a ranked
duplicate-free list with itself under a common non-negative weight returns
the chunk ids in the input order. -/
theorem weighted_fusion_ranking :
    (∀ (results : List SearchResult), ∀ x ∈ normalize_scores results,
      0 ≤ x ∧ x ≤ 1) ∧
    (∀ (r : SearchResult) (rest : List SearchResult),
      listMaxScore r rest = listMinScore r rest →
      normalize_scores (r :: rest) = List.replicate (r :: rest).length (1 : ℚ)) ∧
    (∀ (l : List SearchResult) (w : ℚ), 0 ≤ w →
      (l.map (fun r => r.chunk_id)).Nodup →
      List.Chain' (fun a b : SearchResult => b.score ≤ a.score) l →
      (weighted_fusion l l w w).map (fun r => r.chunk_id) =
        l.map (fun r => r.chunk_id)) := by
  refine ⟨?_, ?_, ?_⟩
  · intro rs x hx
    cases rs with
    | nil => simp [normalize_scores] at hx
    | cons r rest =>
      rw [normalize_scores] at hx
      by_cases heq : listMaxScore r rest = listMinScore r rest
      · rw [if_pos heq] at hx
        have := List.eq_of_mem_replicate hx
        subst this
        norm_num
      · rw [if_neg heq] at hx
        have hd : 0 < listMaxScore r rest - listMinScore r rest :=
          sub_pos.mpr (lt_of_le_of_ne (listMinScore_le_max r rest) (Ne.symm heq))
        rcases List.mem_map.mp hx with ⟨s, hs, rfl⟩
        rcases List.mem_map.mp hs with ⟨t, ht, rfl⟩
        constructor
        · exact div_nonneg (sub_nonneg.mpr (listMinScore_le r rest t ht)) hd.le
        · rw [div_le_one hd]
          have := listMaxScore_ge r rest t ht
          linarith
  · intro r rest h
    rw [normalize_scores, if_pos h]
  · intro l w hw hnodup hchain
    have hlen : (normalize_scores l).length = l.length := normalize_scores_length l
    set ns := normalize_scores l with hns
    set ps := l.zip ns with hps
    have hids : ps.map (fun p => p.1.chunk_id) = l.map (fun r => r.chunk_id) := by
      rw [hps, show (fun p : SearchResult × ℚ => p.1.chunk_id)
        = (fun r : SearchResult => r.chunk_id) ∘ Prod.fst from rfl, ← List.map_map,
        List.map_fst_zip _ _ (le_of_eq hlen.symm)]
    have hnodup' : (ps.map (fun p => p.1.chunk_id)).Nodup := by
      rw [hids]; exact hnodup
    have h1 : (weightedPass ([], []) ps w).1 =
        ps.map (fun p => (p.1.chunk_id, p.2 * w)) := by
      simpa using weightedPass_fst_fresh ps [] [] w (by simp) hnodup'
    have hinv1 : ∀ p ∈ (weightedPass ([], []) ps w).2,
        (p : String × SearchResult).2.chunk_id = p.1 :=
      weightedPass_snd_inv w ps ([], []) (by simp)
    have hacc : weightedPass ([], []) ps w
        = (ps.map (fun p => (p.1.chunk_id, p.2 * w)), (weightedPass ([], []) ps w).2) := by
      rw [← h1]
    have h2 : (weightedPass (weightedPass ([], []) ps w) ps w).1 =
        ps.map (fun p => (p.1.chunk_id, p.2 * w + p.2 * w)) := by
      rw [hacc]
      simpa using weightedPass_fst_existing (fun p => p.2 * w) ps []
        (weightedPass ([], []) ps w).2 w (by simp) hnodup'
    have hinv2 : ∀ p ∈ (weightedPass (weightedPass ([], []) ps w) ps w).2,
        (p : String × SearchResult).2.chunk_id = p.1 :=
      weightedPass_snd_inv w ps _ hinv1
    have hns_chain : List.Chain' (fun a b : ℚ => b ≤ a) ns :=
      normalize_scores_chain l hchain
    have hsnd : ps.map Prod.snd = ns := List.map_snd_zip _ _ (le_of_eq hlen)
    have hps_chain : List.Chain' (fun p q : SearchResult × ℚ => q.2 ≤ p.2) ps := by
      rw [← hsnd] at hns_chain
      exact (List.chain'_map Prod.snd).mp hns_chain
    have hfus : weighted_fusion l l w w = sortByScoreDesc (buildFused
        (weightedPass (weightedPass ([], []) ps w) ps w).1
        (weightedPass (weightedPass ([], []) ps w) ps w).2) := rfl
    rw [hfus, h2]
    have hbuilt : List.Chain' (fun a b : SearchResult => b.score ≤ a.score)
        (buildFused (ps.map (fun p => (p.1.chunk_id, p.2 * w + p.2 * w)))
          (weightedPass (weightedPass ([], []) ps w) ps w).2) := by
      refine (List.chain'_map _).mpr ?_
      refine ((List.chain'_map _).mpr ?_ : List.Chain' _
        (ps.map (fun p => (p.1.chunk_id, p.2 * w + p.2 * w))))
      refine hps_chain.imp ?_
      intro a b hba
      show b.2 * w + b.2 * w ≤ a.2 * w + a.2 * w
      have := mul_le_mul_of_nonneg_right hba hw
      linarith
    rw [sortByScoreDesc_sorted_id _ hbuilt, buildFused_ids _ _ hinv2,
      List.map_map]
    exact hids

/-- C7, witness: fusing the two-element ranked list with itself at weight 1/2
each preserves the ranking. -/
theorem weighted_fusion_ranking_witness :
    (weighted_fusion
      [⟨("a"), (""), (""), 2⟩, ⟨("b"), (""), (""), 1⟩]
      [⟨("a"), (""), (""), 2⟩, ⟨("b"), (""), (""), 1⟩]
      (1/2) (1/2)).map (fun r => r.chunk_id) =
    ([⟨("a"), (""), (""), 2⟩, ⟨("b"), (""), (""), 1⟩] : List SearchResult).map
      (fun r => r.chunk_id) :=
  weighted_fusion_ranking.2.2
    [⟨("a"), (""), (""), 2⟩, ⟨("b"), (""), (""), 1⟩] (1/2)
    (by norm_num) (by decide) (by
      refine List.chain'_cons.mpr ⟨?_, List.chain'_singleton _⟩
      norm_num)

/-- C4, counterexample.  With configured dimension 3, a 200 response whose
single vector has dimension 2 is returned as a success: `_embed_batch` never
checks the vector dimension and no `EmbeddingDimensionMismatch` exists in the
code, so a successfully returned vector need not have the configured
dimension. -/
theorem embed_dimension_counterexample :
    embed_batch ⟨("m"), 3, 100, 3⟩
        (fun _ => .resp 200 [(0, [1, 2])] ("m") 5) =
      .ok ⟨[[1, 2]], ("m"), 5⟩ ∧
    ([(1 : ℚ), 2].length ≠ (⟨("m"), 3, 100, 3⟩ : EmbeddingConfig).dimension) := by
  exact ⟨rfl, by decide⟩

/-- C4, amended.  On any 200 response at the first attempt, `_embed_batch`
returns the response vectors reordered by the `index` field exactly as they
came, whatever their dimension — there is no dimension validation. -/
theorem embed_batch_no_dimension_check (config : EmbeddingConfig)
    (att : Nat → EmbedAttempt) (data : List (Nat × List ℚ)) (model : String)
    (tok : Nat) (h0 : 0 < config.max_retries)
    (hatt : att 0 = .resp 200 data model tok) :
    embed_batch config att = .ok ⟨(sortByIndex data).map Prod.snd, model, tok⟩ := by
  rw [embed_batch]
  obtain ⟨n, hn⟩ := Nat.exists_eq_succ_of_ne_zero (Nat.pos_iff_ne_zero.mp h0)
  rw [hn, embedBatchGo, hatt]
  rfl

/-- C4, witness: a permuted two-vector 200 response is returned sorted by
index, with no error, at any configured dimension (here 3, vectors of
dimension 1). -/
theorem embed_batch_no_dimension_check_witness :
    embed_batch ⟨("m"), 3, 100, 3⟩
        (fun _ => .resp 200 [(1, [5]), (0, [7])] ("m") 9) =
      .ok ⟨[[(7 : ℚ)], [5]], ("m"), 9⟩ :=
  embed_batch_no_dimension_check ⟨("m"), 3, 100, 3⟩
    (fun _ => .resp 200 [(1, [5]), (0, [7])] ("m") 9)
    [(1, [5]), (0, [7])] ("m") 9 (by decide) rfl

/-- C5.  A failure of the underlying cache store is swallowed: `get` returns
`None` (a miss), `set` returns `False`, neither propagates, and the enclosing
cached retrieval still returns the pipeline's results. -/
theorem cache_errors_swallowed (config : CacheConfig) (env : CacheEnv)
    (msg msg' : String) (results : List SearchResult) (use_cache : Bool)
    (hget : env.getResult = .error msg) (hset : env.setResult = .error msg') :
    SearchCache.get config env = none ∧
    SearchCache.set config env results = false ∧
    CachedRetrievalPipeline.search config env results use_cache = results := by
  have hg : SearchCache.get config env = none := by
    rw [SearchCache.get]
    split_ifs
    · rfl
    · rw [hget]
  have hs : SearchCache.set config env results = false := by
    rw [SearchCache.set]
    split_ifs
    · rfl
    · rfl
    · rw [hset]
  refine ⟨hg, hs, ?_⟩
  cases use_cache <;> simp [CachedRetrievalPipeline.search, hg]

/-- C5, witness: with the default cache configuration and a store failing on
both operations, `get` misses, `set` reports failure, and the cached search
returns the pipeline's single result. -/
theorem cache_errors_swallowed_witness :
    SearchCache.get ⟨3600, true, ("knowbase:search"), 100, true⟩
        ⟨.error ("boom"), .error ("boom")⟩ = none ∧
    SearchCache.set ⟨3600, true, ("knowbase:search"), 100, true⟩
        ⟨.error ("boom"), .error ("boom")⟩ [⟨("a"), (""), (""), 1⟩] = false ∧
    CachedRetrievalPipeline.search ⟨3600, true, ("knowbase:search"), 100, true⟩
        ⟨.error ("boom"), .error ("boom")⟩ [⟨("a"), (""), (""), 1⟩] true =
      [⟨("a"), (""), (""), 1⟩] :=
  cache_errors_swallowed _ _ ("boom") ("boom") _ true rfl rfl

/-- Helper: the encoding chain always decodes, because its last entry is the
total latin-1 decoder. -/
lemma decodeLoop_total (codecs : TextCodecs) (data : List (Fin 256)) :
    ∃ content, decodeLoop (txtEncodings codecs) data = some content := by
  rw [txtEncodings]
  rw [decodeLoop]
  cases h1 : codecs.utf8 data with
  | some s => exact ⟨s, rfl⟩
  | none =>
    rw [decodeLoop]
    cases h2 : codecs.utf8_sig data with
    | some s => exact ⟨s, rfl⟩
    | none =>
      rw [decodeLoop]
      cases h3 : codecs.gbk data with
      | some s => exact ⟨s, rfl⟩
      | none =>
        rw [decodeLoop]
        cases h4 : codecs.gb2312 data with
        | some s => exact ⟨s, rfl⟩
        | none =>
          rw [decodeLoop]
          cases h5 : codecs.gb18030 data with
          | some s => exact ⟨s, rfl⟩
          | none => exact ⟨latin1Decode data, rfl⟩

/-- C10.  `TxtParser.parse_bytes` is total over byte inputs: whatever the
five fallible codecs do, the chain ends in the total latin-1 decoder, so the
loop always yields a decoded content, the `content is None` fallback branch
is unreachable, and a `ParsedDocument` built from the decoded content is
returned. -/
theorem txt_parse_bytes_total (codecs : TextCodecs) (data : List (Fin 256)) :
    ∃ content, decodeLoop (txtEncodings codecs) data = some content ∧
      TxtParser.parse_bytes codecs data = ⟨content, data.length, [content]⟩ := by
  obtain ⟨content, hc⟩ := decodeLoop_total codecs data
  exact ⟨content, hc, by rw [TxtParser.parse_bytes, hc]⟩

/-- C1, counterexample.  There is no compare-and-set claim in
`process_document`: (a) a FAILED document (status not PENDING, no force) is
still transitioned to PROCESSING and then COMPLETED; (b) under the
interleaving where the second call reads the row before the first call
writes it, both calls transition the document to COMPLETED and both return a
full success — neither returns an "already_processing" or no-op outcome. -/
theorem process_claim_counterexample :
    (process_document false (.ok 4)
        (some ⟨DocumentStatus.failed, 0, none, 0⟩)).transitions =
      [(DocumentStatus.failed, DocumentStatus.processing),
       (DocumentStatus.processing, DocumentStatus.completed)] ∧
    (runSched false false (.ok 4) (.ok 7)
        [false, true, false, false, true, true]
        (some ⟨DocumentStatus.pending, 0, none, 0⟩)).transitions =
      [(DocumentStatus.pending, DocumentStatus.processing),
       (DocumentStatus.processing, DocumentStatus.completed),
       (DocumentStatus.completed, DocumentStatus.processing),
       (DocumentStatus.processing, DocumentStatus.completed)] ∧
    (runSched false false (.ok 4) (.ok 7)
        [false, true, false, false, true, true]
        (some ⟨DocumentStatus.pending, 0, none, 0⟩)).w1.result =
      some ⟨true, 4, none⟩ ∧
    (runSched false false (.ok 4) (.ok 7)
        [false, true, false, false, true, true]
        (some ⟨DocumentStatus.pending, 0, none, 0⟩)).w2.result =
      some ⟨true, 7, none⟩ := by
  refine ⟨rfl, rfl, rfl, rfl⟩

/-- C1, amended.  `process_document` commits a PROCESSING transition exactly
when the document exists and it is not the COMPLETED-without-force no-op
case; in particular PROCESSING and FAILED documents are transitioned too,
and a missing document commits nothing.  There is no atomic
PENDING→PROCESSING compare-and-set, so concurrent calls are not mutually
excluded. -/
theorem process_document_processing_iff (force : Bool) (env : PipelineOutcome)
    (d : DocumentRow) :
    ((∃ p ∈ (process_document force env (some d)).transitions,
        (p : DocumentStatus × DocumentStatus).2 = DocumentStatus.processing) ↔
      ¬ (d.status = DocumentStatus.completed ∧ force = false)) ∧
    (process_document false env none).transitions = [] := by
  constructor
  · by_cases h : d.status = DocumentStatus.completed ∧ force = false
    · obtain ⟨h1, h2⟩ := h
      subst h2
      simp [process_document, runSched, schedStep, workerStep, h1]
    · rcases env with n | m <;>
        simp [process_document, runSched, schedStep, workerStep, h]
  · rcases env with n | m <;>
      simp [process_document, runSched, schedStep, workerStep]

/-- C2, counterexample.  A failing attempt (exception "boom" between download
and finalize) leaves the document with `status = FAILED` but `error_message`
still `None` and `retry_count` still 0: the handler only updates the status
column, so the error is not recorded on the row and the retry count is not
incremented. -/
theorem finalize_failure_counterexample :
    (process_document false (.err ("boom"))
        (some ⟨DocumentStatus.pending, 0, none, 0⟩)).doc =
      some ⟨DocumentStatus.failed, 0, none, 0⟩ ∧
    (process_document false (.err ("boom"))
        (some ⟨DocumentStatus.pending, 0, none, 0⟩)).w1.result =
      some ⟨false, 0, some ("boom")⟩ := by
  exact ⟨rfl, rfl⟩

/-- C2, amended.  On every failing attempt that reaches the pipeline (the
document exists and is not COMPLETED-without-force), the handler sets the
document's status to FAILED but leaves its `error_message` and `retry_count`
unchanged; the error text is recorded only in the returned
`ProcessingResult`. -/
theorem finalize_failure_fields (d : DocumentRow) (force : Bool) (msg : String)
    (h : ¬ (d.status = DocumentStatus.completed ∧ force = false)) :
    (process_document force (.err msg) (some d)).doc =
      some ⟨DocumentStatus.failed, d.chunk_count, d.error_message, d.retry_count⟩ ∧
    (process_document force (.err msg) (some d)).w1.result =
      some ⟨false, 0, some msg⟩ := by
  constructor <;> simp [process_document, runSched, schedStep, workerStep, h]

/-- C2, witness: reprocessing a PENDING document that fails with "boom"
leaves error_message `None` and retry_count 0 on the row while the result
carries the error. -/
theorem finalize_failure_fields_witness :
    (process_document false (.err ("boom"))
        (some ⟨DocumentStatus.pending, 3, none, 2⟩)).doc =
      some ⟨DocumentStatus.failed, 3, none, 2⟩ ∧
    (process_document false (.err ("boom"))
        (some ⟨DocumentStatus.pending, 3, none, 2⟩)).w1.result =
      some ⟨false, 0, some ("boom")⟩ :=
  finalize_failure_fields ⟨DocumentStatus.pending, 3, none, 2⟩ false ("boom")
    (by decide)

/-- C1, amended, witness: a COMPLETED document processed with force=true is
transitioned to PROCESSING. -/
theorem process_document_processing_iff_witness :
    ∃ p ∈ (process_document true (.ok 1)
        (some ⟨DocumentStatus.completed, 5, none, 0⟩)).transitions,
      (p : DocumentStatus × DocumentStatus).2 = DocumentStatus.processing :=
  (process_document_processing_iff true (.ok 1)
    ⟨DocumentStatus.completed, 5, none, 0⟩).1.mpr (by decide)
